import Mathlib

set_option maxHeartbeats 1000000

/-!
Verification development for the specra-sdk documentation core:
the content resolver, corpus scanner, sidebar order builder and cache
layer from `src/lib/mdx.ts`, `src/lib/mdx-cache.ts` and the path/MDX
security module, shallowly embedded in Lean.

Strings are modelled as Lean `String` (lists of unicode chars),
timestamps as `Int` milliseconds, and the Node filesystem as an explicit
association list from docs-root-relative forward-slash paths to parsed
MDX files (the front-matter parser is an opaque collaborator per the
spec, so files are stored already split into data and body).
-/

instance {ε α : Type} [DecidableEq ε] [DecidableEq α] : DecidableEq (Except ε α) := fun a b =>
  match a, b with
  | .ok x, .ok y =>
    if h : x = y then .isTrue (by rw [h]) else .isFalse (by simp [h])
  | .error x, .error y =>
    if h : x = y then .isTrue (by rw [h]) else .isFalse (by simp [h])
  | .ok _, .error _ => .isFalse (by simp)
  | .error _, .ok _ => .isFalse (by simp)

/-! ## Character and string utilities (JS string primitives) -/

/-- Split a char list at every occurrence of `sep`; mirrors
`String.prototype.split` with a single-char separator (never returns
an empty list; `"".split` gives `[""]`). -/
def splitOnChar (sep : Char) : List Char → List (List Char)
  | [] => [[]]
  | c :: rest =>
    let r := splitOnChar sep rest
    if c = sep then [] :: r
    else match r with
      | [] => [[c]]
      | s :: ss => (c :: s) :: ss

/-- JS `s.split(sep)` for a one-char separator. -/
def strSplit (sep : Char) (s : String) : List String :=
  (splitOnChar sep s.data).map String.mk

/-- Join strings with a separator; `joinWith sep [] = ""`, mirroring
`Array.prototype.join`. -/
def joinWith (sep : String) : List String → String
  | [] => ""
  | [s] => s
  | s :: rest => s ++ sep ++ joinWith sep rest

/-- Prefix test on char lists (first argument is the candidate prefix). -/
def listStartsWith : List Char → List Char → Bool
  | [], _ => true
  | _, [] => false
  | p :: ps, c :: cs => p = c && listStartsWith ps cs

/-- Substring test on char lists; mirrors `String.prototype.includes`. -/
def listContainsSub (pat : List Char) : List Char → Bool
  | [] => pat.isEmpty
  | l@(_ :: rest) => listStartsWith pat l || listContainsSub pat rest

/-- JS `s.includes(pat)`. -/
def strContainsSub (s pat : String) : Bool :=
  listContainsSub pat.data s.data

/-- JS `s.startsWith(pat)`. -/
def strStartsWith (s pat : String) : Bool :=
  listStartsWith pat.data s.data

/-- JS `s.endsWith(pat)`. -/
def strEndsWith (s pat : String) : Bool :=
  listStartsWith pat.data.reverse s.data.reverse

/-- Strip a suffix if present (used for dropping the `.mdx` extension,
as the source does with `file.replace(/\.mdx$/, "")`). -/
def stripSuffix (s suffix : String) : String :=
  if strEndsWith s suffix then String.mk (s.data.take (s.data.length - suffix.data.length)) else s

/-- The whitespace class of the JS `\s` regex escape, restricted to the
code points that occur in practice (ASCII whitespace and NBSP). -/
def isWsChar (c : Char) : Bool :=
  c = ' ' || c = '\t' || c = '\n' || c = '\r' || c = '\x0b' || c = '\x0c' || c = '\xa0'

/-- The JS `\w` regex class: `[A-Za-z0-9_]`. -/
def isWordChar (c : Char) : Bool :=
  ('a' ≤ c && c ≤ 'z') || ('A' ≤ c && c ≤ 'Z') || ('0' ≤ c && c ≤ '9') || c = '_'

/-- ASCII letter test, the case-insensitive `[a-z]` class. -/
def isAsciiLetter (c : Char) : Bool :=
  ('a' ≤ c && c ≤ 'z') || ('A' ≤ c && c ≤ 'Z')

/-- JS falsiness of an optional string: `undefined` and `""` are falsy. -/
def truthyS (o : Option String) : Bool :=
  match o with
  | some s => s ≠ ""
  | none => false

/-- JS `a || b` on optional strings (falsy left operand selects right). -/
def jsOrS (a b : Option String) : Option String :=
  if truthyS a then a else b

/-- JS truthiness of an optional boolean (only `true` is truthy). -/
def truthyB (o : Option Bool) : Bool :=
  o = some true

/-! ## decodeURIComponent -/

/-- Numeric value of a hex digit, both cases (code points 48-57 are
the digits, 97-102 and 65-70 the lower and upper letters). -/
def hexDigitVal (c : Char) : Option Nat :=
  let n := c.toNat
  if 48 ≤ n && n ≤ 57 then some (n - 48)
  else if 97 ≤ n && n ≤ 102 then some (n - 87)
  else if 65 ≤ n && n ≤ 70 then some (n - 55)
  else none

/-- Read one `%XX` escape from the head of the list, yielding the byte
value and the remainder; fails (URIError) unless two hex digits follow. -/
def readPctByte : List Char → Option (Nat × List Char)
  | '%' :: h1 :: h2 :: rest =>
    match hexDigitVal h1, hexDigitVal h2 with
    | some a, some b => some (16 * a + b, rest)
    | _, _ => none
  | _ => none

/-- Read one `%XX` escape that must be a UTF-8 continuation byte in the
given inclusive range, yielding its 6 payload bits. -/
def readContByte (lo hi : Nat) (l : List Char) : Option (Nat × List Char) :=
  match readPctByte l with
  | some (b, rest) => if lo ≤ b && b ≤ hi then some (b % 64, rest) else none
  | none => none

/-- One decoded element of `decodeURIComponent`: either a literal char
or a (strictly validated) UTF-8 sequence of `%XX` escapes. -/
def decodeOneEscape (l : List Char) : Option (Char × List Char) :=
  match readPctByte l with
  | none => none
  | some (b, r1) =>
    if b < 0x80 then some (Char.ofNat b, r1)
    else if b < 0xc2 then none
    else if b ≤ 0xdf then
      match readContByte 0x80 0xbf r1 with
      | some (c1, r2) => some (Char.ofNat ((b - 0xc0) * 64 + c1), r2)
      | none => none
    else if b ≤ 0xef then
      let firstLo := if b = 0xe0 then 0xa0 else 0x80
      let firstHi := if b = 0xed then 0x9f else 0xbf
      match readContByte firstLo firstHi r1 with
      | some (c1, r2) =>
        match readContByte 0x80 0xbf r2 with
        | some (c2, r3) => some (Char.ofNat ((b - 0xe0) * 4096 + c1 * 64 + c2), r3)
        | none => none
      | none => none
    else if b ≤ 0xf4 then
      let firstLo := if b = 0xf0 then 0x90 else 0x80
      let firstHi := if b = 0xf4 then 0x8f else 0xbf
      match readContByte firstLo firstHi r1 with
      | some (c1, r2) =>
        match readContByte 0x80 0xbf r2 with
        | some (c2, r3) =>
          match readContByte 0x80 0xbf r3 with
          | some (c3, r4) =>
            some (Char.ofNat ((b - 0xf0) * 262144 + c1 * 4096 + c2 * 64 + c3), r4)
          | none => none
        | none => none
      | none => none
    else none

/-- Fuelled worker for `percentDecode`; every step consumes at least one
input char, so fuel `length + 1` never runs out. -/
def percentDecodeAux : Nat → List Char → Option (List Char)
  | 0, _ => none
  | _ + 1, [] => some []
  | fuel + 1, l@('%' :: _) =>
    match decodeOneEscape l with
    | none => none
    | some (c, rest) =>
      match percentDecodeAux fuel rest with
      | some tail => some (c :: tail)
      | none => none
  | fuel + 1, c :: rest =>
    match percentDecodeAux fuel rest with
    | some tail => some (c :: tail)
    | none => none

/-- Model of the ECMAScript `decodeURIComponent`: percent escapes are
decoded as strict UTF-8 byte sequences, all other chars pass through;
`none` models a thrown `URIError`. -/
def percentDecode (s : String) : Option String :=
  (percentDecodeAux (s.data.length + 1) s.data).map String.mk

/-! ## Node `path.posix` primitives -/

/-- POSIX absolute-path test (`path.isAbsolute`). -/
def isAbsolutePosix (s : String) : Bool :=
  strStartsWith s "/"

/-- Segment processing of Node `path.posix.normalize`: drop empty and
dot segments; `..` pops a real segment, stacks up at the front of a
relative path and vanishes at the root of an absolute one. -/
def normalizeSegs (isAbs : Bool) : List String → List String → List String
  | stack, [] => stack.reverse
  | stack, seg :: rest =>
    if seg = "" || seg = "." then normalizeSegs isAbs stack rest
    else if seg = ".." then
      match stack with
      | [] => if isAbs then normalizeSegs isAbs [] rest else normalizeSegs isAbs [".."] rest
      | top :: below =>
        if top = ".." then normalizeSegs isAbs (".." :: stack) rest
        else normalizeSegs isAbs below rest
    else normalizeSegs isAbs (seg :: stack) rest

/-- Model of Node `path.posix.normalize`. -/
def posixNormalize (s : String) : String :=
  if s = "" then "." else
  let isAbs := isAbsolutePosix s
  let hasTrail := strEndsWith s "/"
  let segs := (splitOnChar '/' s.data).map String.mk
  let joined := joinWith "/" (normalizeSegs isAbs [] segs)
  if joined = "" then (if isAbs then "/" else if hasTrail then "./" else ".")
  else
    let j := if hasTrail then joined ++ "/" else joined
    if isAbs then "/" ++ j else j

/-- Node `path.posix.join` of two segments: concatenate and normalize. -/
def pathJoin (a b : String) : String :=
  posixNormalize (a ++ "/" ++ b)

/-- Node `path.posix.dirname`, on the normalized relative paths this
code feeds it: everything before the last slash, or `"."`. -/
def pathDirname (s : String) : String :=
  let parts := strSplit '/' s
  if parts.length ≤ 1 then "." else joinWith "/" parts.dropLast

/-- JS `s.replace(/\\/g, "/")`. -/
def backslashToSlash (s : String) : String :=
  String.mk (s.data.map fun c => if c = '\\' then '/' else c)

/-! ## Path sanitizer (`sanitizePath` in the MDX security module) -/

/-- Model of `sanitizePath` from the security module: decode URI
escapes, reject traversal patterns and absolute paths, normalize, and
reject any form that still escapes; `.error` models a thrown `Error`. -/
def sanitizePath (userPath : String) : Except String String :=
  match percentDecode userPath with
  | none => .error "URI malformed"
  | some decoded =>
    if strContainsSub decoded "../" || strContainsSub decoded "..\\" ||
       strContainsSub decoded "%2e%2e" || strContainsSub decoded "%252e%252e" ||
       isAbsolutePosix decoded then
      .error "Path traversal detected"
    else
      let normalized := backslashToSlash (posixNormalize decoded)
      if strStartsWith normalized ".." || strContainsSub normalized "/../" then
        .error "Invalid path detected"
      else .ok normalized

/-- Model of `validatePathWithinDirectory(filePath, DOCS_DIR)`: resolve
against the docs root (written `/docs` here) and require the result to
stay below it. -/
def validatePathWithinDirectory (filePath : String) : Bool :=
  let resolved :=
    if isAbsolutePosix filePath then posixNormalize filePath
    else posixNormalize ("/docs/" ++ filePath)
  strStartsWith resolved "/docs/" || resolved = "/docs"

/-! ## MDX content security (`mdx-security` module)

The dangerous-pattern regexes of `scanMDXForDangerousPatterns` are
embedded as explicit matchers over char lists.  Each matcher tries to
match at the head of the list (case-insensitively, as all the regexes
carry the `i` flag) and returns the remainder after the match. -/

/-- Case-insensitive literal match at the head; `pat` is lowercase. -/
def matchLitCI : List Char → List Char → Option (List Char)
  | [], l => some l
  | _, [] => none
  | p :: ps, c :: cs => if c.toLower = p then matchLitCI ps cs else none

/-- Matcher for `word\s*\(` patterns (eval, Function, import, require,
fetch, exec, spawn). -/
def matchWordWsParen (word : List Char) (l : List Char) : Option (List Char) :=
  match matchLitCI word l with
  | none => none
  | some r =>
    match r.dropWhile isWsChar with
    | '(' :: rest => some rest
    | _ => none

/-- Matcher for `fs\.[a-z]+` (with the `i` flag the class is any ASCII
letter); greedy `+` consumes the maximal run. -/
def matchFsDot (l : List Char) : Option (List Char) :=
  match matchLitCI "fs.".data l with
  | none => none
  | some r =>
    match r with
    | c :: _ => if isAsciiLetter c then some (r.dropWhile isAsciiLetter) else none
    | [] => none

/-- Matcher for `<script[>\s]`. -/
def matchScriptOpen (l : List Char) : Option (List Char) :=
  match matchLitCI "<script".data l with
  | none => none
  | some r =>
    match r with
    | c :: rest => if c = '>' || isWsChar c then some rest else none
    | [] => none

/-- Matcher for `on\w+\s*=` (inline event handlers). -/
def matchOnHandler (l : List Char) : Option (List Char) :=
  match matchLitCI "on".data l with
  | none => none
  | some r =>
    match r with
    | c :: _ =>
      if isWordChar c then
        match (r.dropWhile isWordChar).dropWhile isWsChar with
        | '=' :: rest => some rest
        | _ => none
      else none
    | [] => none

/-- Does the matcher succeed at some position of the list? -/
def existsMatch (m : List Char → Option (List Char)) : List Char → Bool
  | [] => (m []).isSome
  | l@(_ :: rest) => (m l).isSome || existsMatch m rest

/-- The `DANGEROUS_PATTERNS` table, in source order, paired with the
regex source text used in the reported issue. -/
def dangerousPatterns : List (String × (List Char → Option (List Char))) :=
  [ ("eval\\s*\\(", matchWordWsParen "eval".data),
    ("Function\\s*\\(", matchWordWsParen "function".data),
    ("import\\s*\\(", matchWordWsParen "import".data),
    ("require\\s*\\(", matchWordWsParen "require".data),
    ("fs\\.[a-z]+", matchFsDot),
    ("readFile", matchLitCI "readfile".data),
    ("writeFile", matchLitCI "writefile".data),
    ("process\\.env", matchLitCI "process.env".data),
    ("fetch\\s*\\(", matchWordWsParen "fetch".data),
    ("child_process", matchLitCI "child_process".data),
    ("exec\\s*\\(", matchWordWsParen "exec".data),
    ("spawn\\s*\\(", matchWordWsParen "spawn".data),
    ("<script[>\\s]", matchScriptOpen),
    ("javascript:", matchLitCI "javascript:".data),
    ("on\\w+\\s*=", matchOnHandler) ]

/-- Model of `scanMDXForDangerousPatterns`. -/
def scanMDXForDangerousPatterns (content : String) : List String :=
  (dangerousPatterns.filter fun pm => existsMatch pm.2 content.data).map
    fun pm => "Dangerous pattern detected: " ++ pm.1

/-- Head matcher for `/<script[^>]*>[\s\S]*?<\/script>/gi`: the opening
tag up to its first `>`, then lazily through the first `</script>`. -/
def matchScriptBlock (l : List Char) : Option (List Char) :=
  match matchLitCI "<script".data l with
  | none => none
  | some r =>
    match r.dropWhile (fun c => c ≠ '>') with
    | '>' :: rest => dropThroughCI "</script>".data (rest.length + 1) rest
    | _ => none
where
  /-- Drop chars until (and including) the first case-insensitive
  occurrence of `pat`; `none` when there is no occurrence. -/
  dropThroughCI (pat : List Char) : Nat → List Char → Option (List Char)
    | 0, _ => none
    | _ + 1, [] => none
    | fuel + 1, l@(_ :: rest) =>
      match matchLitCI pat l with
      | some r => some r
      | none => dropThroughCI pat fuel rest

/-- Head matcher for `/\s+on\w+\s*=\s*["'][^"']*["']/gi` (attribute
form of an inline event handler, including its value). -/
def matchOnHandlerAttr (l : List Char) : Option (List Char) :=
  match l with
  | c :: _ =>
    if isWsChar c then
      let r1 := l.dropWhile isWsChar
      match matchLitCI "on".data r1 with
      | none => none
      | some r2 =>
        match r2 with
        | c2 :: _ =>
          if isWordChar c2 then
            match (r2.dropWhile isWordChar).dropWhile isWsChar with
            | '=' :: r3 =>
              match r3.dropWhile isWsChar with
              | q :: r4 =>
                if q = '"' || q = '\'' then
                  match r4.dropWhile (fun ch => ch ≠ '"' && ch ≠ '\'') with
                  | q2 :: r5 => if q2 = '"' || q2 = '\'' then some r5 else none
                  | [] => none
                else none
              | [] => none
            | _ => none
          else none
        | [] => none
    else none
  | [] => none

/-- Global regex replacement by deletion: at each position, if the head
matcher fires, drop the match and continue after it, else keep the char.
Each firing consumes at least one char, so fuel `length + 1` suffices. -/
def deleteAllMatches (m : List Char → Option (List Char)) : Nat → List Char → List Char
  | 0, l => l
  | _ + 1, [] => []
  | fuel + 1, c :: cs =>
    match m (c :: cs) with
    | some rest => deleteAllMatches m fuel rest
    | none => c :: deleteAllMatches m fuel cs

/-- Model of `sanitizeMDXContent`: strip script blocks, inline event
handlers and the `javascript:` protocol; in strict mode fail first when
a dangerous pattern is present. -/
def sanitizeMDXContent (content : String) (strict : Bool) : Except String String :=
  if strict && !(scanMDXForDangerousPatterns content).isEmpty then
    .error "MDX content contains dangerous patterns"
  else
    let l0 := content.data
    let l1 := deleteAllMatches matchScriptBlock (l0.length + 1) l0
    let l2 := deleteAllMatches matchOnHandlerAttr (l1.length + 1) l1
    let l3 := deleteAllMatches (matchLitCI "javascript:".data) (l2.length + 1) l2
    .ok (String.mk l3)

/-- The set `SAFE_MDX_COMPONENTS`. -/
def safeMDXComponents : List String :=
  [ "h1", "h2", "h3", "h4", "h5", "h6",
    "p", "a", "ul", "ol", "li", "code", "pre",
    "blockquote", "table", "thead", "tbody", "tr", "th", "td",
    "img", "video", "audio", "br", "hr", "strong", "em",
    "Callout", "CodeBlock", "Accordion", "AccordionItem",
    "Tabs", "Tab", "Image", "Video", "Card", "CardGrid",
    "ImageCard", "ImageCardGrid", "Steps", "Step",
    "Icon", "Mermaid", "Math", "Columns", "Column",
    "Badge", "Tooltip", "Frame",
    "ApiEndpoint", "ApiParams", "ApiResponse", "ApiPlayground", "ApiReference" ]

/-- Collect every `<Name` component occurrence (`/<([A-Z][a-zA-Z0-9]*)/g`). -/
def collectComponentNames : Nat → List Char → List String
  | 0, _ => []
  | _ + 1, [] => []
  | fuel + 1, '<' :: c :: rest =>
    if 'A' ≤ c && c ≤ 'Z' then
      let nm := c :: rest.takeWhile (fun ch => isAsciiLetter ch || ('0' ≤ ch && ch ≤ '9'))
      let r := rest.dropWhile (fun ch => isAsciiLetter ch || ('0' ≤ ch && ch ≤ '9'))
      String.mk nm :: collectComponentNames fuel r
    else collectComponentNames fuel (c :: rest)
  | fuel + 1, _ :: rest => collectComponentNames fuel rest

/-- Model of `validateMDXComponents`. -/
def validateMDXComponents (content : String) : Bool × List String :=
  let issues := ((collectComponentNames (content.data.length + 1) content.data).filter
    fun nm => !safeMDXComponents.contains nm).map fun nm => "Unsafe component detected: " ++ nm
  (issues.isEmpty, issues)

/-- Result record of `validateMDXSecurity`. -/
structure SecurityCheck where
  valid : Bool
  issues : List String
  sanitized : Option String
deriving DecidableEq

/-- Model of `validateMDXSecurity` (the resolver calls it with
`strictMode = (NODE_ENV = production)` and `blockDangerousPatterns = true`;
`allowCustomComponents` defaults to `true`). -/
def validateMDXSecurity (content : String) (strictMode allowCustomComponents blockDangerousPatterns : Bool) : SecurityCheck :=
  let issues1 := if blockDangerousPatterns then scanMDXForDangerousPatterns content else []
  let issues := if !allowCustomComponents then issues1 ++ (validateMDXComponents content).2 else issues1
  if strictMode && !issues.isEmpty then
    { valid := false, issues := issues, sanitized := none }
  else
    match sanitizeMDXContent content false with
    | .ok s => { valid := true, issues := issues, sanitized := some s }
    | .error _ => { valid := true, issues := issues, sanitized := none }

/-! ## Data model

Front matter is what the opaque `gray-matter` collaborator produces, so
files are stored already split into a metadata record and a body. -/

/-- Front-matter fields the embedded code reads (`DocMeta` input side). -/
structure FrontMatter where
  title : Option String := none
  slug : Option String := none
  draft : Option Bool := none
  order : Option Int := none
  sidebar_position : Option Int := none
  tab_group : Option String := none
  sidebar : Option String := none
  group : Option String := none
  icon : Option String := none
  locale : Option String := none
deriving DecidableEq

/-- A content file: parsed front matter plus body. -/
structure MdxFile where
  data : FrontMatter := {}
  content : String := ""
deriving DecidableEq

/-- The filesystem provider: docs-root-relative normalized paths to
parsed MDX files, the set of existing directories, and the top-level
directory listing used by `getVersions` (`none` models a `readdir`
failure). -/
structure FileSystem where
  files : List (String × MdxFile) := []
  dirs : List String := []
  rootEntries : Option (List (String × Bool)) := none

/-- Generic association-list lookup (string keys, first match wins),
mirroring `Map.get`. -/
def assocLookup {α : Type} : List (String × α) → String → Option α
  | [], _ => none
  | (k, v) :: rest, key => if k = key then some v else assocLookup rest key

/-- The locale configuration collaborator (spec section 6). -/
structure I18nConfig where
  defaultLocale : String
  locales : List String
  prefixDefault : Bool := false
deriving DecidableEq

/-- A category descriptor (`_category_.json`), loaded by the
category-descriptor collaborator. -/
structure CategoryConfig where
  label : Option String := none
  position : Option Int := none
  sidebar_position : Option Int := none
  collapsible : Option Bool := none
  collapsed : Option Bool := none
  icon : Option String := none
  tab_group : Option String := none
deriving DecidableEq

/-- The process environment of one resolution: filesystem, locale
configuration (`getI18nConfig` output), `NODE_ENV`, and the
category-descriptor loader.  The latter two collaborators
(`getConfig`/`getAllCategoryConfigs`) live outside the corpus and are
supplied as read-only inputs, as the spec describes them. -/
structure Env where
  fs : FileSystem
  i18n : Option I18nConfig := none
  nodeEnv : String := "test"
  categoryConfigs : String → List (String × CategoryConfig) := fun _ => []

/-- `DocMeta` as constructed by the resolver: spread front matter plus
the derived content, reading-time and word-count fields. -/
structure DocMeta where
  title : Option String := none
  slug : Option String := none
  draft : Option Bool := none
  order : Option Int := none
  sidebar_position : Option Int := none
  tab_group : Option String := none
  sidebar : Option String := none
  group : Option String := none
  icon : Option String := none
  locale : Option String := none
  content : String := ""
  reading_time : Nat := 0
  word_count : Nat := 0
deriving DecidableEq

/-- A resolved `Doc`. -/
structure Doc where
  slug : String
  filePath : String
  title : String
  meta : DocMeta
  content : String
  categoryLabel : Option String := none
  categoryPosition : Option Int := none
  categoryCollapsible : Option Bool := none
  categoryCollapsed : Option Bool := none
  categoryIcon : Option String := none
  categoryTabGroup : Option String := none
deriving DecidableEq

/-- `calculateReadingTime`: word count of the trimmed body split on
whitespace runs (`"".split(/\s+/)` has length 1) and minutes at 200
words per minute, rounded up. -/
def calculateReadingTime (content : String) : Nat × Nat :=
  let trimmed := (content.data.dropWhile isWsChar).reverse.dropWhile isWsChar |>.reverse
  let words := if trimmed.isEmpty then 1 else (trimmed.splitOnP isWsChar).filter (fun w => !w.isEmpty) |>.length
  ((words + 199) / 200, words)

/-- JS `data.slug.replace(/^\//, "")`: strip one leading slash. -/
def stripOneLeadingSlash (s : String) : String :=
  match s.data with
  | '/' :: rest => String.mk rest
  | _ => s

/-- Model of `readDocFromFile(filePath, originalSlug)`: existence check,
containment check, security validation (fatal only in production),
reading time, custom-slug override of the final path segment, and
document construction.  Filesystem or parse errors are the `none`
branches. -/
def readDocFromFile (env : Env) (filePath originalSlug : String) : Option Doc :=
  match assocLookup env.fs.files filePath with
  | none => none
  | some file =>
    if !validatePathWithinDirectory filePath then none
    else
      let isProd := env.nodeEnv = "production"
      let securityCheck := validateMDXSecurity file.content isProd true true
      if !securityCheck.valid && isProd then none
      else
        let safeContent :=
          match securityCheck.sanitized with
          | some s => if s = "" then file.content else s
          | none => file.content
        let rt := calculateReadingTime safeContent
        let finalSlug :=
          if truthyS file.data.slug then
            match file.data.slug with
            | some ds =>
              let customSlug := stripOneLeadingSlash ds
              let parts := strSplit '/' originalSlug
              if parts.length > 1 then joinWith "/" (parts.dropLast ++ [customSlug])
              else customSlug
            | none => originalSlug
          else originalSlug
        some
          { slug := finalSlug
            filePath := originalSlug
            title :=
              match file.data.title with
              | some t => if t = "" then originalSlug else t
              | none => originalSlug
            meta :=
              { title := file.data.title
                slug := file.data.slug
                draft := file.data.draft
                order := file.data.order
                sidebar_position := file.data.sidebar_position
                tab_group := file.data.tab_group
                sidebar := file.data.sidebar
                group := file.data.group
                icon := file.data.icon
                locale := file.data.locale
                content := safeContent
                reading_time := rt.1
                word_count := rt.2 }
            content := safeContent }

/-- Model of `getDocBySlug(slug, version, locale?)`: sanitize both
inputs (a thrown sanitizer error is caught into `none`), peel a leading
locale segment off the slug, try the `slug.locale.mdx` file, then the
undecorated `slug.mdx` file, which is served only for the default
locale (or with locale support off); otherwise `NotFound`. -/
def getDocBySlug (env : Env) (slug : String) (version : String) (locale : Option String) : Option Doc :=
  match sanitizePath version, sanitizePath slug with
  | .ok sanitizedVersion, .ok sanitizedSlug0 =>
    let i18n := env.i18n
    let detected0 : Option String :=
      if truthyS locale then locale else i18n.map (·.defaultLocale)
    let peeled :=
      match i18n with
      | none => (sanitizedSlug0, detected0)
      | some cfg =>
        match strSplit '/' sanitizedSlug0 with
        | [] => (sanitizedSlug0, detected0)
        | p0 :: rest =>
          if cfg.locales.contains p0 then
            let s1 := joinWith "/" rest
            (if s1 = "" then "index" else s1, some p0)
          else (sanitizedSlug0, detected0)
    let sanitizedSlug := peeled.1
    let targetLocale := peeled.2
    let isDefaultLocale := targetLocale = i18n.map (·.defaultLocale)
    let basePath := sanitizedVersion
    let localized : Option Doc :=
      match targetLocale with
      | some tl =>
        if tl ≠ "" then
          match readDocFromFile env (pathJoin basePath (sanitizedSlug ++ "." ++ tl ++ ".mdx")) sanitizedSlug with
          | some doc =>
            some { doc with
              slug := if i18n.isSome then tl ++ "/" ++ sanitizedSlug else sanitizedSlug
              meta := { doc.meta with locale := targetLocale } }
          | none => none
        else none
      | none => none
    match localized with
    | some d => some d
    | none =>
      match readDocFromFile env (pathJoin basePath (sanitizedSlug ++ ".mdx")) sanitizedSlug with
      | some doc =>
        if isDefaultLocale || i18n.isNone then
          let usePfx :=
            match i18n with
            | some cfg => cfg.prefixDefault || targetLocale ≠ some cfg.defaultLocale
            | none => false
          let doc' :=
            match targetLocale with
            | some tl => if usePfx && tl ≠ "" then { doc with slug := tl ++ "/" ++ doc.slug } else doc
            | none => doc
          some { doc' with
            meta := { doc'.meta with
              locale := if truthyS targetLocale then targetLocale else some "en" } }
        else none
      | none => none
  | _, _ => none

/-! ## Corpus scanner (`getAllDocs`) -/

/-- Model of `getVersions`: top-level directory entries of the docs
root; a readdir failure falls back to `["v1.0.0"]`. -/
def getVersions (fs : FileSystem) : List String :=
  match fs.rootEntries with
  | none => ["v1.0.0"]
  | some entries => (entries.filter (·.2)).map (·.1)

/-- Model of `findMdxFiles(versionDir)`: every `.mdx` file under the
version directory, as a version-relative forward-slash path, in
discovery order. -/
def findMdxFiles (fs : FileSystem) (version : String) : List String :=
  (fs.files.map (·.1)).filterMap fun p =>
    if strStartsWith p (version ++ "/") && strEndsWith p ".mdx" then
      some (String.mk (p.data.drop (version.data.length + 1)))
    else none

/-- Overlay of a category descriptor onto a document (`getAllDocs`,
category-annotation step). -/
def overlayCategory (cc : CategoryConfig) (doc : Doc) : Doc :=
  { doc with
    categoryLabel := cc.label
    categoryPosition := match cc.position with | some p => some p | none => cc.sidebar_position
    categoryCollapsible := cc.collapsible
    categoryCollapsed := cc.collapsed
    categoryIcon := cc.icon
    categoryTabGroup := cc.tab_group }

/-- Locale-suffix handling of one discovered file (`getAllDocs` body):
strip `.mdx`, then peel a trailing `.<locale>` that names a configured
locale, yielding the logical path, the file locale and whether the file
was localized. -/
def localeSuffixSplit (i18n : Option I18nConfig) (file : String) : String × String × Bool :=
  let ofp0 := stripSuffix file ".mdx"
  let fileLocale0 :=
    match i18n with
    | some cfg => if cfg.defaultLocale = "" then "en" else cfg.defaultLocale
    | none => "en"
  match i18n with
  | none => (ofp0, fileLocale0, false)
  | some cfg =>
    let parts := strSplit '.' ofp0
    match parts.getLast? with
    | some lastPart =>
      if cfg.locales.contains lastPart then
        (joinWith "." parts.dropLast, lastPart, true)
      else (ofp0, fileLocale0, false)
    | none => (ofp0, fileLocale0, false)

/-- Resolution of one discovered file (`getAllDocs` map body): resolve
the logical path through `getDocBySlug`, restore the logical path as
`filePath`, and overlay the nearest category descriptor. -/
def scanDocOfFile (env : Env) (version : String) (file : String) : Option Doc :=
  let split := localeSuffixSplit env.i18n file
  let ofp := split.1
  match getDocBySlug env ofp version (if split.2.2 then some split.2.1 else none) with
  | none => none
  | some doc0 =>
    let doc := { doc0 with filePath := ofp }
    let folderPath := backslashToSlash (pathDirname ofp)
    if folderPath ≠ "." then
      match assocLookup (env.categoryConfigs version) folderPath with
      | some cc => some (overlayCategory cc doc)
      | none => some doc
    else some doc

/-- All resolutions of a version, nulls dropped (`docs.filter(doc !== null)`). -/
def scanDocs (env : Env) (version : String) : List Doc :=
  (findMdxFiles env.fs version).filterMap (scanDocOfFile env version)

/-- Draft filtering (`isDevelopment || !doc.meta.draft`). -/
def validDocs (env : Env) (version : String) : List Doc :=
  (scanDocs env version).filter fun d => env.nodeEnv = "development" || !truthyB d.meta.draft

/-- The target locale of a corpus scan:
`locale || i18nConfig?.defaultLocale || 'en'`. -/
def targetLocaleOf (i18n : Option I18nConfig) (locale : Option String) : String :=
  match jsOrS locale (i18n.map (·.defaultLocale)) with
  | some s => if s = "" then "en" else s
  | none => "en"

/-- The logical slug of a document: its slug with a leading
locale segment removed (`getAllDocs` dedup key). -/
def logicalSlugOf (i18n : Option I18nConfig) (slug : String) : String :=
  match i18n with
  | none => slug
  | some cfg =>
    match strSplit '/' slug with
    | [] => slug
    | p0 :: rest => if cfg.locales.contains p0 then joinWith "/" rest else slug

/-- JS `Map.set`: replace in place when the key exists, append otherwise. -/
def insertOrReplace {α : Type} : List (String × α) → String → α → List (String × α)
  | [], k, v => [(k, v)]
  | (k0, v0) :: rest, k, v =>
    if k0 = k then (k0, v) :: rest else (k0, v0) :: insertOrReplace rest k v

/-- One step of the `uniqueDocs` deduplication: a new logical slug is
stored when its locale is the target or the default locale; an occupied
slug is replaced only by a target-locale document displacing a
non-target one. -/
def dedupInsert (i18n : Option I18nConfig) (targetLocale : String) (m : List (String × Doc)) (doc : Doc) : List (String × Doc) :=
  let ls := logicalSlugOf i18n doc.slug
  match assocLookup m ls with
  | none =>
    if doc.meta.locale = some targetLocale then insertOrReplace m ls doc
    else if doc.meta.locale = i18n.map (·.defaultLocale) then insertOrReplace m ls doc
    else m
  | some existing =>
    if doc.meta.locale = some targetLocale ∧ existing.meta.locale ≠ some targetLocale then
      insertOrReplace m ls doc
    else m

/-- The full deduplication fold over the valid documents. -/
def dedupDocs (i18n : Option I18nConfig) (targetLocale : String) (ds : List Doc) : List (String × Doc) :=
  ds.foldl (dedupInsert i18n targetLocale) []

/-- Values of the dedup map, in insertion order (`Array.from(map.values())`). -/
def assocValues {α : Type} (m : List (String × α)) : List α :=
  m.map (·.2)

/-- Stable insertion: `x` goes before the first element whose key is not
smaller, which is exactly the stable-sort placement of the ECMAScript
`Array.prototype.sort` with the numeric comparator. -/
def insertSorted {α : Type} (key : α → Int) (x : α) : List α → List α
  | [] => [x]
  | y :: ys => if key x ≤ key y then x :: y :: ys else y :: insertSorted key x ys

/-- Stable sort by an integer key. -/
def stableSortBy {α : Type} (key : α → Int) : List α → List α
  | [] => []
  | x :: xs => insertSorted key x (stableSortBy key xs)

/-- The ordering hint `sidebar_position ?? order ?? 999` (nullish
coalescing, so explicit zeroes count). -/
def docOrderKey (d : Doc) : Int :=
  d.meta.sidebar_position.getD (d.meta.order.getD 999)

/-- Model of `getAllDocs(version, locale?)`: an absent version directory
is an empty corpus; otherwise scan, filter drafts, deduplicate by
logical slug with locale preference, and stable-sort by ordering hint. -/
def getAllDocs (env : Env) (version : String) (locale : Option String) : List Doc :=
  if env.fs.dirs.contains version then
    stableSortBy docOrderKey
      (assocValues (dedupDocs env.i18n (targetLocaleOf env.i18n locale) (validDocs env version)))
  else []

def envEx1 : Env :=
  { fs :=
      { files :=
          [ ("v1/intro.mdx", { content := "hello" }),
            ("v1/intro.fr.mdx", { content := "bonjour" }) ]
        dirs := ["v1"] }
    i18n := some { defaultLocale := "en", locales := ["en", "fr"] } }

def envEx2 : Env :=
  { fs := { files := [("v1/intro.mdx", { content := "hello" })], dirs := ["v1"] }
    i18n := some { defaultLocale := "en", locales := ["en", "fr"] } }

/-! ## Sidebar order builder

`buildSidebarStructure`, `sortSidebarItems` and `sortSidebarGroups`
live in `lib/sidebar-utils`, which is not part of the corpus (only its
callers are).  Modelled from the spec: spec section 4.4 gives the tree
construction and the per-level ordering rule
(`sidebar_position ?? order ?? 999`, groups by their stored position,
stable), and the sidebar component in the corpus carries an inline
duplicate of the same construction which this model follows. -/

/-- A sidebar tree node.  `children` maps folder names to sub-groups in
insertion order. -/
inductive SidebarGroup where
  | mk
    (label : String)
    (path : String)
    (icon : Option String)
    (items : List Doc)
    (position : Int)
    (collapsible : Bool)
    (defaultCollapsed : Bool)
    (children : List (String × SidebarGroup))

def SidebarGroup.label : SidebarGroup → String
  | .mk l _ _ _ _ _ _ _ => l

def SidebarGroup.path : SidebarGroup → String
  | .mk _ p _ _ _ _ _ _ => p

def SidebarGroup.icon : SidebarGroup → Option String
  | .mk _ _ i _ _ _ _ _ => i

def SidebarGroup.items : SidebarGroup → List Doc
  | .mk _ _ _ its _ _ _ _ => its

def SidebarGroup.position : SidebarGroup → Int
  | .mk _ _ _ _ pos _ _ _ => pos

def SidebarGroup.collapsible : SidebarGroup → Bool
  | .mk _ _ _ _ _ c _ _ => c

def SidebarGroup.defaultCollapsed : SidebarGroup → Bool
  | .mk _ _ _ _ _ _ d _ => d

def SidebarGroup.children : SidebarGroup → List (String × SidebarGroup)
  | .mk _ _ _ _ _ _ _ cs => cs

/-- JS `charAt(0).toUpperCase() + slice(1)`. -/
def capitalizeFirst (s : String) : String :=
  match s.data with
  | [] => ""
  | c :: rest => String.mk (c.toUpper :: rest)

/-- Folder display label: dash-separated words, each capitalized. -/
def folderLabelOf (folder : String) : String :=
  joinWith " " ((strSplit '-' folder).map capitalizeFirst)

/-- Is the document the index page of its folder (name `index`, or slug
equal to the folder path)? -/
def isIndexFileDoc (doc : Doc) : Bool :=
  let pathParts := strSplit '/' doc.filePath
  strEndsWith doc.filePath "/index" || doc.filePath = "index" ||
    (pathParts.length > 1 && doc.slug = joinWith "/" pathParts.dropLast)

/-- A freshly materialized folder node, fields taken from the document
whose insertion created it (category label only at the last level). -/
def newFolderGroup (doc : Doc) (isLast : Bool) (folder currentPath : String) : SidebarGroup :=
  .mk
    (if truthyS doc.categoryLabel && isLast then (doc.categoryLabel.getD "") else folderLabelOf folder)
    currentPath
    doc.categoryIcon
    []
    (doc.categoryPosition.getD 999)
    (doc.categoryCollapsible.getD true)
    (doc.categoryCollapsed.getD false)
    []

/-- Contribution of an index document to its enclosing node: position,
and label/icon when the category declares them. -/
def applyIndexDoc (doc : Doc) (g : SidebarGroup) : SidebarGroup :=
  match g with
  | .mk l p i its _ c d cs =>
    let pos := doc.categoryPosition.getD (doc.meta.sidebar_position.getD 999)
    let l' := if truthyS doc.categoryLabel then doc.categoryLabel.getD "" else l
    let i' := if truthyS doc.categoryIcon then doc.categoryIcon else i
    .mk l' p i' its pos c d cs

/-- Append a leaf document to a node. -/
def pushItem (doc : Doc) (g : SidebarGroup) : SidebarGroup :=
  match g with
  | .mk l p i its pos c d cs => .mk l p i (its ++ [doc]) pos c d cs

/-- Replace the children map of a node. -/
def setChildren (cs : List (String × SidebarGroup)) (g : SidebarGroup) : SidebarGroup :=
  match g with
  | .mk l p i its pos c d _ => .mk l p i its pos c d cs

/-- Walk the folder segments, materializing nodes lazily and applying
the document at the innermost level. -/
def insertIntoGroups (doc : Doc) (isIndex : Bool) : List String → String → List (String × SidebarGroup) → List (String × SidebarGroup)
  | [], _, groups => groups
  | [folder], pathSoFar, groups =>
    let currentPath := if pathSoFar = "" then folder else pathSoFar ++ "/" ++ folder
    let g :=
      match assocLookup groups folder with
      | some g => g
      | none => newFolderGroup doc true folder currentPath
    let g' := if isIndex then applyIndexDoc doc g else pushItem doc g
    insertOrReplace groups folder g'
  | folder :: rest, pathSoFar, groups =>
    let currentPath := if pathSoFar = "" then folder else pathSoFar ++ "/" ++ folder
    let g :=
      match assocLookup groups folder with
      | some g => g
      | none => newFolderGroup doc false folder currentPath
    let g' := setChildren (insertIntoGroups doc isIndex rest currentPath g.children) g
    insertOrReplace groups folder g'

/-- Insertion of a document carrying an explicit `sidebar`/`group`
override into the root groups. -/
def insertCustomGroup (doc : Doc) (isIndex : Bool) (customGroup : String) (groups : List (String × SidebarGroup)) : List (String × SidebarGroup) :=
  let groupName := capitalizeFirst customGroup
  let g :=
    match assocLookup groups groupName with
    | some g => g
    | none =>
      .mk groupName customGroup none [] 999
        (doc.categoryCollapsible.getD true) (doc.categoryCollapsed.getD false) []
  let g' :=
    if isIndex then
      match g with
      | .mk l p _ its _ c d cs => .mk l p doc.categoryIcon its (doc.meta.sidebar_position.getD 999) c d cs
    else pushItem doc g
  insertOrReplace groups groupName g'

/-- Modelled from the spec (section 4.4): `buildSidebarStructure` —
fold every document into the root-group forest or the standalone list.
Index documents of the docs root contribute to neither. -/
def buildSidebarStructure (docs : List Doc) : List (String × SidebarGroup) × List Doc :=
  docs.foldl
    (fun acc doc =>
      let pathParts := strSplit '/' doc.filePath
      let isIndex := isIndexFileDoc doc
      let customGroup := jsOrS doc.meta.sidebar doc.meta.group
      match customGroup with
      | some cg =>
        if cg ≠ "" then (insertCustomGroup doc isIndex cg acc.1, acc.2)
        else if pathParts.length > 1 then
          (insertIntoGroups doc isIndex pathParts.dropLast "" acc.1, acc.2)
        else if isIndex then acc
        else (acc.1, acc.2 ++ [doc])
      | none =>
        if pathParts.length > 1 then
          (insertIntoGroups doc isIndex pathParts.dropLast "" acc.1, acc.2)
        else if isIndex then acc
        else (acc.1, acc.2 ++ [doc]))
    ([], [])

/-- Modelled from the spec (section 4.4 ordering rule):
`sortSidebarItems` — stable sort of leaf documents by
`sidebar_position ?? order ?? 999`. -/
def sortSidebarItems (items : List Doc) : List Doc :=
  stableSortBy docOrderKey items

/-- Modelled from the spec (section 4.4 ordering rule):
`sortSidebarGroups` — stable sort of sibling groups by their stored
position. -/
def sortSidebarGroups (groups : List (String × SidebarGroup)) : List (String × SidebarGroup) :=
  stableSortBy (fun kg => kg.2.position) groups

/-- The merged child list of a node: sub-groups then items, each tagged
with its ordering position (`flattenSidebarOrder` in `mdx.ts`). -/
def mergedEntries (g : SidebarGroup) : List (Int × (SidebarGroup ⊕ Doc)) :=
  (sortSidebarGroups g.children).map (fun kg => (kg.2.position, Sum.inl kg.2)) ++
  (sortSidebarItems g.items).map (fun d => (docOrderKey d, Sum.inr d))

/-- Depth-first flattening of one node, children and leaves intermixed
by position.  Fuel bounds the nesting depth; callers pass a bound
exceeding any folder depth, so it never runs out. -/
def flattenGroup : Nat → SidebarGroup → List Doc
  | 0, _ => []
  | fuel + 1, g =>
    (stableSortBy (·.1) (mergedEntries g)).foldr
      (fun e acc =>
        (match e.2 with
         | .inl child => flattenGroup fuel child
         | .inr d => [d]) ++ acc)
      []

/-- Model of `flattenSidebarOrder`: standalone documents first, then
every root group depth-first. -/
def flattenSidebarOrder (fuel : Nat) (rootGroups : List (String × SidebarGroup)) (standalone : List Doc) : List Doc :=
  sortSidebarItems standalone ++
    (sortSidebarGroups rootGroups).foldr (fun kg acc => flattenGroup fuel kg.2 ++ acc) []

/-- A nesting-depth bound for the sidebar tree built from `docs`. -/
def sidebarFuel (docs : List Doc) : Nat :=
  docs.foldl (fun acc d => max acc (strSplit '/' d.filePath).length) 0 + 1

/-- The tab group a document belongs to:
`doc.meta?.tab_group || doc.categoryTabGroup`. -/
def docTabGroup (d : Doc) : Option String :=
  jsOrS d.meta.tab_group d.categoryTabGroup

/-- The global linear sidebar order of a document collection (the
`orderedDocs` of `getAdjacentDocs`). -/
def sidebarOrderedDocs (allDocs : List Doc) : List Doc :=
  let built := buildSidebarStructure allDocs
  flattenSidebarOrder (sidebarFuel allDocs) built.1 built.2

/-- Model of `getAdjacentDocs(currentSlug, allDocs)`: flatten the
sidebar order, restrict to the current tab-group membership class, and
take the immediate neighbours. -/
def getAdjacentDocs (currentSlug : String) (allDocs : List Doc) : Option Doc × Option Doc :=
  let orderedDocs := sidebarOrderedDocs allDocs
  match orderedDocs.findIdx? (fun d => d.slug == currentSlug) with
  | none => (none, none)
  | some currentIndex =>
    match orderedDocs.get? currentIndex with
    | none => (none, none)
    | some currentDoc =>
      let currentTabGroup := docTabGroup currentDoc
      let filteredDocs := orderedDocs.filter fun d =>
        if truthyS currentTabGroup then docTabGroup d == currentTabGroup
        else !truthyS (docTabGroup d)
      match filteredDocs.findIdx? (fun d => d.slug == currentSlug) with
      | none => (none, none)
      | some fi =>
        (if fi > 0 then filteredDocs.get? (fi - 1) else none,
         filteredDocs.get? (fi + 1))

/-- Model of `isCategoryPage(slug, allDocs)`: some other document sits
directly below the slug. -/
def isCategoryPage (slug : String) (allDocs : List Doc) : Bool :=
  allDocs.any fun doc =>
    let parts := strSplit '/' doc.slug
    joinWith "/" parts.dropLast == slug && doc.slug != slug

/-! ## Cache layer (`mdx-cache.ts`)

The module-level mutable caches become an explicit state record; the
wall clock (`Date.now()`) becomes an explicit `now` argument; the
hit/miss report sent to `logCacheOperation` becomes part of the return
value; `watchCount` counts `watch()` subscriptions created, so the
idempotent-init behaviour is observable. -/

/-- One cache entry: data plus write timestamp. -/
structure CacheEntry (α : Type) where
  data : α
  timestamp : Int
deriving DecidableEq

/-- The cache operation reported for an access. -/
inductive CacheOp where
  | hit
  | miss
deriving DecidableEq

/-- The module state of `mdx-cache.ts`. -/
structure CacheState where
  versionsData : Option (List String) := none
  versionsTimestamp : Int := 0
  allDocsCache : List (String × CacheEntry (List Doc)) := []
  docBySlugCache : List (String × CacheEntry (Option Doc)) := []
  watchersInitialized : Bool := false
  watchCount : Nat := 0
deriving DecidableEq

/-- `CACHE_TTL`: 5 s in development, 60 s otherwise. -/
def CACHE_TTL (env : Env) : Int :=
  if env.nodeEnv = "development" then 5000 else 60000

/-- Model of `isCacheValid(timestamp)`. -/
def isCacheValid (env : Env) (now timestamp : Int) : Bool :=
  now - timestamp < CACHE_TTL env

/-- Model of `initializeWatchers()`: a no-op outside development mode or
when already initialized; otherwise flips the flag and creates the
watch subscription. -/
def initializeWatchers (env : Env) (st : CacheState) : CacheState :=
  if env.nodeEnv ≠ "development" || st.watchersInitialized then st
  else { st with watchersInitialized := true, watchCount := st.watchCount + 1 }

/-- Model of `getCachedVersions()`. -/
def getCachedVersions (env : Env) (now : Int) (st : CacheState) : List String × CacheOp × CacheState :=
  let st := initializeWatchers env st
  match st.versionsData with
  | some data =>
    if isCacheValid env now st.versionsTimestamp then (data, .hit, st)
    else
      let versions := getVersions env.fs
      (versions, .miss, { st with versionsData := some versions, versionsTimestamp := now })
  | none =>
    let versions := getVersions env.fs
    (versions, .miss, { st with versionsData := some versions, versionsTimestamp := now })

/-- Model of `getCachedAllDocs(version)` (the underlying scan is called
without a locale argument). -/
def getCachedAllDocs (env : Env) (version : String) (now : Int) (st : CacheState) : List Doc × CacheOp × CacheState :=
  let st := initializeWatchers env st
  match assocLookup st.allDocsCache version with
  | some e =>
    if isCacheValid env now e.timestamp then (e.data, .hit, st)
    else
      let docs := getAllDocs env version none
      (docs, .miss, { st with allDocsCache := insertOrReplace st.allDocsCache version ⟨docs, now⟩ })
  | none =>
    let docs := getAllDocs env version none
    (docs, .miss, { st with allDocsCache := insertOrReplace st.allDocsCache version ⟨docs, now⟩ })

/-- Model of `getCachedDocBySlug(slug, version)`: the entry object is
tested for presence, not its `data` field, so a stored `null` result is
served as a hit like any other. -/
def getCachedDocBySlug (env : Env) (slug version : String) (now : Int) (st : CacheState) : Option Doc × CacheOp × CacheState :=
  let st := initializeWatchers env st
  let cacheKey := version ++ ":" ++ slug
  match assocLookup st.docBySlugCache cacheKey with
  | some e =>
    if isCacheValid env now e.timestamp then (e.data, .hit, st)
    else
      let doc := getDocBySlug env slug version none
      (doc, .miss, { st with docBySlugCache := insertOrReplace st.docBySlugCache cacheKey ⟨doc, now⟩ })
  | none =>
    let doc := getDocBySlug env slug version none
    (doc, .miss, { st with docBySlugCache := insertOrReplace st.docBySlugCache cacheKey ⟨doc, now⟩ })

/-- Split a char list at every char satisfying `p` (the `/[/\\]/` split
of the watch callback). -/
def splitOnPredChar (p : Char → Bool) : List Char → List (List Char)
  | [] => [[]]
  | c :: rest =>
    let r := splitOnPredChar p rest
    if p c then [] :: r
    else match r with
      | [] => [[c]]
      | s :: ss => (c :: s) :: ss

/-- JS `filename.split(/[/\\]/)`. -/
def splitOnSeps (s : String) : List String :=
  (splitOnPredChar (fun c => c = '/' || c = '\\') s.data).map String.mk

/-- Model of the `watch` callback installed by `initializeWatchers`:
scoped eviction of the affected version on document or
category-descriptor changes, version-list reset on rename events. -/
def watchCallback (eventType : String) (filename : Option String) (st : CacheState) : CacheState :=
  match filename with
  | none => st
  | some f =>
    if f = "" then st
    else if strEndsWith f ".mdx" || strEndsWith f ".json" then
      let version := (splitOnSeps f).headD ""
      let st' :=
        { st with
          allDocsCache := st.allDocsCache.filter fun kv => !(kv.1 == version)
          docBySlugCache := st.docBySlugCache.filter fun kv => !(strStartsWith kv.1 (version ++ ":")) }
      if eventType = "rename" then { st' with versionsData := none } else st'
    else st

/-- One request against the cache layer, named by entry point. -/
inductive CacheCall where
  | versions
  | allDocs (version : String)
  | docBySlug (slug version : String)

/-- State effect of one entry-point call. -/
def execCall (env : Env) (c : CacheCall) (now : Int) (st : CacheState) : CacheState :=
  match c with
  | .versions => (getCachedVersions env now st).2.2
  | .allDocs v => (getCachedAllDocs env v now st).2.2
  | .docBySlug s v => (getCachedDocBySlug env s v now st).2.2

/-- A sequence of timed entry-point calls within one process. -/
def runCalls (env : Env) (calls : List (CacheCall × Int)) (st : CacheState) : CacheState :=
  calls.foldl (fun st ct => execCall env ct.1 ct.2 st) st

/-- The state at process start. -/
def initialCacheState : CacheState := {}

/-! ## Invariant definitions and concrete fixtures used by the theorems -/

def docGuide : Doc :=
  { slug := "guide", filePath := "guide", title := "Guide", meta := {}, content := "" }

def docGuideIntro : Doc :=
  { slug := "guide/intro", filePath := "guide/intro", title := "Intro", meta := {}, content := "" }

def envC4 : Env :=
  { fs :=
      { files :=
          [ ("v1/guide/setup.mdx",
             { data := { slug := some "installation" }, content := "body" }) ]
        dirs := ["v1"] } }

def envTest : Env := { fs := {} }

def stC5 : CacheState := { allDocsCache := [("v1", ⟨[], 100⟩)] }

def envProdC7 : Env := { fs := {}, nodeEnv := "production" }

def envDevC7 : Env := { fs := {}, nodeEnv := "development" }

def stC8 : CacheState :=
  { versionsData := some ["v1", "v2"]
    allDocsCache := [("v1", ⟨[], 5⟩), ("v2", ⟨[], 6⟩)]
    docBySlugCache := [("v1:intro", ⟨none, 7⟩), ("v2:intro", ⟨none, 8⟩)] }

def envC10a : Env := { fs := {} }

def envC10b : Env := { fs := { files := [("v1/intro.mdx", {})], dirs := ["v1"] } }

def stC10 : CacheState := (getCachedDocBySlug envC10a "intro" "v1" 0 initialCacheState).2.2

def tabClass (d : Doc) : Option String :=
  if truthyS (docTabGroup d) then docTabGroup d else none

def docTabA : Doc :=
  { slug := "a", filePath := "a", title := "A"
    meta := { sidebar_position := some 1, tab_group := some "x" }, content := "" }

def docTabB : Doc :=
  { slug := "b", filePath := "b", title := "B"
    meta := { sidebar_position := some 2 }, content := "" }

def docTabC : Doc :=
  { slug := "c", filePath := "c", title := "C"
    meta := { sidebar_position := some 3, tab_group := some "x" }, content := "" }

def DedupInv (i18n : Option I18nConfig) (target : String) (m : List (String × Doc)) : Prop :=
  (m.map (·.1)).Nodup ∧
  ∀ kv ∈ m, logicalSlugOf i18n kv.2.slug = kv.1 ∧
    (kv.2.meta.locale = some target ∨ kv.2.meta.locale = i18n.map (·.defaultLocale))

/-! ## Shared lemmas -/

theorem assocLookup_none_iff {α : Type} (m : List (String × α)) (k : String) :
    assocLookup m k = none ↔ ∀ kv ∈ m, kv.1 ≠ k := by
  induction m with
  | nil => simp [assocLookup]
  | cons hd tl ih =>
    by_cases h : hd.1 = k
    · simp [assocLookup, h]
    · simp [assocLookup, h, ih]

theorem insertOrReplace_of_lookup_none {α : Type} {m : List (String × α)} {k : String} (v : α)
    (h : assocLookup m k = none) : insertOrReplace m k v = m ++ [(k, v)] := by
  induction m with
  | nil => simp [insertOrReplace]
  | cons hd tl ih =>
    simp only [assocLookup] at h
    by_cases hk : hd.1 = k
    · simp [hk] at h
    · simp only [insertOrReplace, if_neg hk]
      rw [ih (by simpa [hk] using h)]
      simp

theorem keys_insertOrReplace_of_lookup_some {α : Type} {m : List (String × α)} {k : String}
    {w : α} (v : α) (h : assocLookup m k = some w) :
    (insertOrReplace m k v).map (·.1) = m.map (·.1) := by
  induction m with
  | nil => simp [assocLookup] at h
  | cons hd tl ih =>
    simp only [assocLookup] at h
    by_cases hk : hd.1 = k
    · simp [insertOrReplace, hk]
    · simp only [insertOrReplace, if_neg hk, List.map_cons]
      rw [ih (by simpa [hk] using h)]

theorem mem_insertOrReplace {α : Type} {m : List (String × α)} {k : String} {v : α}
    {kv : String × α} (h : kv ∈ insertOrReplace m k v) : kv ∈ m ∨ kv = (k, v) := by
  induction m with
  | nil => simpa [insertOrReplace] using h
  | cons hd tl ih =>
    by_cases hk : hd.1 = k
    · simp only [insertOrReplace, if_pos hk] at h
      rcases List.mem_cons.mp h with h1 | h1
      · right; simpa [h1]
      · left; exact List.mem_cons_of_mem _ h1
    · simp only [insertOrReplace, if_neg hk] at h
      rcases List.mem_cons.mp h with h1 | h1
      · left; simp [h1]
      · rcases ih h1 with h2 | h2
        · left; exact List.mem_cons_of_mem _ h2
        · right; exact h2

theorem assocLookup_insertOrReplace_self {α : Type} (m : List (String × α)) (k : String) (v : α) :
    assocLookup (insertOrReplace m k v) k = some v := by
  induction m with
  | nil => simp [insertOrReplace, assocLookup]
  | cons hd tl ih =>
    by_cases hk : hd.1 = k
    · simp [insertOrReplace, hk, assocLookup]
    · simp [insertOrReplace, hk, assocLookup, ih]

theorem insertSorted_perm {α : Type} (key : α → Int) (x : α) (l : List α) :
    List.Perm (insertSorted key x l) (x :: l) := by
  induction l with
  | nil => simp [insertSorted]
  | cons y ys ih =>
    by_cases h : key x ≤ key y
    · simp [insertSorted, h]
    · simp only [insertSorted, if_neg h]
      exact ((ih.cons y).trans (List.Perm.swap x y ys))

theorem stableSortBy_perm {α : Type} (key : α → Int) (l : List α) :
    List.Perm (stableSortBy key l) l := by
  induction l with
  | nil => simp [stableSortBy]
  | cons x xs ih =>
    exact (insertSorted_perm key x (stableSortBy key xs)).trans (ih.cons x)

/-! ## Claim theorems -/

/-- C3: every input whose URL-decoded form contains a traversal pattern
or is absolute makes `sanitizePath` throw; every input that decodes
cleanly, matches no pattern and stays relative after normalization is
returned as its normalized forward-slash path; in particular
`sanitizePath("../../etc/passwd")` throws and
`sanitizePath("guide/intro") = "guide/intro"`. -/
theorem C3_sanitizePath_traversal_rejection :
    (∀ s d : String, percentDecode s = some d →
      (strContainsSub d "../" || strContainsSub d "..\\" ||
       strContainsSub d "%2e%2e" || strContainsSub d "%252e%252e" ||
       isAbsolutePosix d) = true →
      sanitizePath s = .error "Path traversal detected") ∧
    (∀ s d : String, percentDecode s = some d →
      (strContainsSub d "../" || strContainsSub d "..\\" ||
       strContainsSub d "%2e%2e" || strContainsSub d "%252e%252e" ||
       isAbsolutePosix d) = false →
      (strStartsWith (backslashToSlash (posixNormalize d)) ".." ||
       strContainsSub (backslashToSlash (posixNormalize d)) "/../") = false →
      sanitizePath s = .ok (backslashToSlash (posixNormalize d))) ∧
    sanitizePath "../../etc/passwd" = .error "Path traversal detected" ∧
    sanitizePath "guide/intro" = .ok "guide/intro" := by
  refine ⟨?_, ?_, by decide, by decide⟩
  · intro s d h1 h2
    simp [sanitizePath, h1, h2]
  · intro s d h1 h2 h3
    simp [sanitizePath, h1, h2, h3]

theorem C3_witness :
    percentDecode "%2e%2e/x" = some "../x" ∧
    sanitizePath "%2e%2e/x" = .error "Path traversal detected" :=
  ⟨by decide, C3_sanitizePath_traversal_rejection.1 "%2e%2e/x" "../x" (by decide) (by decide)⟩

/-- C9: `isCategoryPage(slug)` holds exactly when some other document
sits directly below `slug` (its slug minus the last segment equals
`slug` and it is not `slug` itself). -/
theorem C9_isCategoryPage_iff :
    ∀ (slug : String) (allDocs : List Doc),
      isCategoryPage slug allDocs = true ↔
        ∃ d ∈ allDocs, d.slug ≠ slug ∧
          joinWith "/" ((strSplit '/' d.slug).dropLast) = slug := by
  intro slug allDocs
  simp only [isCategoryPage, List.any_eq_true, Bool.and_eq_true, beq_iff_eq, bne_iff_ne]
  constructor
  · rintro ⟨d, hd, h1, h2⟩
    exact ⟨d, hd, h2, h1⟩
  · rintro ⟨d, hd, h1, h2⟩
    exact ⟨d, hd, h2, h1⟩

theorem C9_witness :
    isCategoryPage "guide" [docGuide, docGuideIntro] = true ∧
    isCategoryPage "guide/intro" [docGuide, docGuideIntro] = false :=
  ⟨(C9_isCategoryPage_iff "guide" [docGuide, docGuideIntro]).mpr
      ⟨docGuideIntro, by decide, by decide, by decide⟩,
    by decide⟩

/-- C1: with locales `["en","fr"]` and default `"en"`, an explicit
request for locale `"fr"` on a slug with no leading locale segment is
`NotFound` whenever the localized file `<version>/<slug>.fr.mdx` is
absent — the undecorated default-locale file is never served for an
explicitly requested non-default locale. -/
theorem C1_no_cross_locale_fallback :
    ∀ (env : Env) (slug version : String) (pd : Bool) (v s : String),
      env.i18n = some { defaultLocale := "en", locales := ["en", "fr"], prefixDefault := pd } →
      sanitizePath version = .ok v →
      sanitizePath slug = .ok s →
      (∀ p0 rest, strSplit '/' s = p0 :: rest → p0 ≠ "en" ∧ p0 ≠ "fr") →
      assocLookup env.fs.files (pathJoin v (s ++ "." ++ "fr" ++ ".mdx")) = none →
      getDocBySlug env slug version (some "fr") = none := by
  intro env slug version pd v s hi hv hs hseg habs
  simp only [getDocBySlug, hv, hs, hi]
  have hloc : readDocFromFile env (pathJoin v (s ++ "." ++ "fr" ++ ".mdx")) s = none := by
    simp [readDocFromFile, habs]
  cases hsp : strSplit '/' s with
  | nil =>
    simp only [hsp, truthyS]
    cases hdef : readDocFromFile env (pathJoin v (s ++ ".mdx")) s with
    | none => simp [hloc, hdef]
    | some doc => simp [hloc, hdef]
  | cons p0 rest =>
    have hne := hseg p0 rest hsp
    have hcontains : (["en", "fr"].contains p0) = false := by
      simp [List.contains, hne.1, hne.2]
    simp only [hsp, hcontains, truthyS]
    cases hdef : readDocFromFile env (pathJoin v (s ++ ".mdx")) s with
    | none => simp [hloc, hdef]
    | some doc => simp [hloc, hdef]

theorem C1_witness :
    getDocBySlug envEx2 "intro" "v1" (some "fr") = none :=
  C1_no_cross_locale_fallback envEx2 "intro" "v1" false "v1" "intro" rfl (by decide) (by decide)
    (by intro p0 rest h; cases h; exact ⟨by decide, by decide⟩) (by decide)

/-- C4: a resolved file whose front matter declares a (non-empty)
custom slug keeps the original logical path in `filePath`, and its
`slug` replaces only the final path segment (root-level files take the
custom slug as-is). -/
theorem C4_custom_slug_override :
    ∀ (env : Env) (fp origSlug : String) (doc : Doc) (file : MdxFile) (c : String),
      readDocFromFile env fp origSlug = some doc →
      assocLookup env.fs.files fp = some file →
      file.data.slug = some c → c ≠ "" →
      doc.filePath = origSlug ∧
      doc.slug =
        (let customSlug := stripOneLeadingSlash c
         let parts := strSplit '/' origSlug
         if parts.length > 1 then joinWith "/" (parts.dropLast ++ [customSlug])
         else customSlug) := by
  intro env fp origSlug doc file c hread hlook hslug hc
  simp only [readDocFromFile, hlook] at hread
  by_cases hval : validatePathWithinDirectory fp
  · simp only [hval, Bool.not_true, if_neg (by simp : ¬ (false = true))] at hread
    by_cases hsec :
        (!(validateMDXSecurity file.content (decide (env.nodeEnv = "production")) true true).valid &&
          decide (env.nodeEnv = "production")) = true
    · simp [hsec] at hread
    · simp only [Bool.not_eq_true] at hsec
      simp only [hsec, if_neg (by simp : ¬ (false = true)), Option.some.injEq] at hread
      subst hread
      refine ⟨rfl, ?_⟩
      simp [hslug, truthyS, hc]
  · simp [hval] at hread

theorem C4_witness :
    ∃ doc : Doc, readDocFromFile envC4 "v1/guide/setup.mdx" "guide/setup" = some doc ∧
      doc.filePath = "guide/setup" ∧ doc.slug = "guide/installation" := by
  have hsome : (readDocFromFile envC4 "v1/guide/setup.mdx" "guide/setup").isSome = true := by decide
  cases hh : readDocFromFile envC4 "v1/guide/setup.mdx" "guide/setup" with
  | none => rw [hh] at hsome; simp at hsome
  | some doc =>
    have hres := C4_custom_slug_override envC4 "v1/guide/setup.mdx" "guide/setup" doc
      { data := { slug := some "installation" }, content := "body" } "installation"
      hh (by decide) rfl (by decide)
    refine ⟨doc, rfl, hres.1, ?_⟩
    rw [hres.2]
    decide

theorem initializeWatchers_allDocsCache (env : Env) (st : CacheState) :
    (initializeWatchers env st).allDocsCache = st.allDocsCache := by
  unfold initializeWatchers
  split <;> rfl

theorem initializeWatchers_docBySlugCache (env : Env) (st : CacheState) :
    (initializeWatchers env st).docBySlugCache = st.docBySlugCache := by
  unfold initializeWatchers
  split <;> rfl

theorem initializeWatchers_of_initialized (env : Env) (st : CacheState)
    (h : st.watchersInitialized = true) : initializeWatchers env st = st := by
  unfold initializeWatchers
  simp [h]

/-- C5: with an `allDocs` cache entry written at `T`, a query at `t` is
a hit exactly when `t - T < CACHE_TTL`, a hit serves the stored data,
and an expired entry is a miss that re-runs `getAllDocs` and restores
the entry with the new timestamp; hence a hit at `T+TTL-1` and a miss
at `T+TTL`. -/
theorem C5_cache_ttl_boundary :
    ∀ (env : Env) (version : String) (st : CacheState) (d : List Doc) (T t : Int),
      assocLookup st.allDocsCache version = some ⟨d, T⟩ →
      (((getCachedAllDocs env version t st).2.1 = .hit) ↔ t - T < CACHE_TTL env) ∧
      (t - T < CACHE_TTL env → (getCachedAllDocs env version t st).1 = d) ∧
      (CACHE_TTL env ≤ t - T →
        (getCachedAllDocs env version t st).2.1 = .miss ∧
        (getCachedAllDocs env version t st).1 = getAllDocs env version none ∧
        assocLookup (getCachedAllDocs env version t st).2.2.allDocsCache version =
          some ⟨getAllDocs env version none, t⟩) := by
  intro env version st d T t hlook
  have hlook' : assocLookup (initializeWatchers env st).allDocsCache version = some ⟨d, T⟩ := by
    rw [initializeWatchers_allDocsCache]; exact hlook
  by_cases hv : t - T < CACHE_TTL env
  · have hvalid : isCacheValid env t T = true := by simp [isCacheValid, hv]
    refine ⟨?_, ?_, ?_⟩
    · simp only [getCachedAllDocs, hlook', hvalid]
      simpa using hv
    · intro _; simp [getCachedAllDocs, hlook', hvalid]
    · intro hle; omega
  · have hvalid : isCacheValid env t T = false := by simp [isCacheValid, hv]
    refine ⟨?_, ?_, ?_⟩
    · simp only [getCachedAllDocs, hlook', hvalid]
      constructor
      · intro hcontra; simp at hcontra
      · intro hcontra; exact absurd hcontra hv
    · intro hlt; omega
    · intro _
      refine ⟨?_, ?_, ?_⟩
      · simp [getCachedAllDocs, hlook', hvalid]
      · simp [getCachedAllDocs, hlook', hvalid]
      · simp only [getCachedAllDocs, hlook', hvalid]
        simp [assocLookup_insertOrReplace_self]

theorem C5_witness :
    (getCachedAllDocs envTest "v1" (100 + 60000 - 1) stC5).2.1 = .hit ∧
    (getCachedAllDocs envTest "v1" (100 + 60000) stC5).2.1 = .miss :=
  ⟨(C5_cache_ttl_boundary envTest "v1" stC5 [] 100 (100 + 60000 - 1) rfl).1.mpr (by decide),
   ((C5_cache_ttl_boundary envTest "v1" stC5 [] 100 (100 + 60000) rfl).2.2 (by decide)).1⟩

theorem getCachedVersions_watch_frame (env : Env) (now : Int) (st : CacheState) :
    (getCachedVersions env now st).2.2.watchersInitialized = (initializeWatchers env st).watchersInitialized ∧
    (getCachedVersions env now st).2.2.watchCount = (initializeWatchers env st).watchCount := by
  unfold getCachedVersions
  dsimp only
  split
  · split
    · exact ⟨rfl, rfl⟩
    · exact ⟨rfl, rfl⟩
  · exact ⟨rfl, rfl⟩

theorem getCachedAllDocs_watch_frame (env : Env) (version : String) (now : Int) (st : CacheState) :
    (getCachedAllDocs env version now st).2.2.watchersInitialized = (initializeWatchers env st).watchersInitialized ∧
    (getCachedAllDocs env version now st).2.2.watchCount = (initializeWatchers env st).watchCount := by
  unfold getCachedAllDocs
  dsimp only
  split
  · split
    · exact ⟨rfl, rfl⟩
    · exact ⟨rfl, rfl⟩
  · exact ⟨rfl, rfl⟩

theorem getCachedDocBySlug_watch_frame (env : Env) (slug version : String) (now : Int) (st : CacheState) :
    (getCachedDocBySlug env slug version now st).2.2.watchersInitialized = (initializeWatchers env st).watchersInitialized ∧
    (getCachedDocBySlug env slug version now st).2.2.watchCount = (initializeWatchers env st).watchCount := by
  unfold getCachedDocBySlug
  dsimp only
  split
  · split
    · exact ⟨rfl, rfl⟩
    · exact ⟨rfl, rfl⟩
  · exact ⟨rfl, rfl⟩

theorem execCall_watch_frame (env : Env) (c : CacheCall) (t : Int) (st : CacheState) :
    (execCall env c t st).watchersInitialized = (initializeWatchers env st).watchersInitialized ∧
    (execCall env c t st).watchCount = (initializeWatchers env st).watchCount := by
  cases c with
  | versions => exact getCachedVersions_watch_frame env t st
  | allDocs v => exact getCachedAllDocs_watch_frame env v t st
  | docBySlug s v => exact getCachedDocBySlug_watch_frame env s v t st

theorem execCall_watch_preserved (env : Env) (c : CacheCall) (t : Int) (st : CacheState)
    (h : st.watchersInitialized = true) :
    (execCall env c t st).watchersInitialized = true ∧
    (execCall env c t st).watchCount = st.watchCount := by
  have hid := initializeWatchers_of_initialized env st h
  have hf := execCall_watch_frame env c t st
  rw [hid] at hf
  exact ⟨hf.1.trans h, hf.2⟩

theorem runCalls_watch_preserved (env : Env) (calls : List (CacheCall × Int)) (st : CacheState)
    (h : st.watchersInitialized = true) :
    (runCalls env calls st).watchersInitialized = true ∧
    (runCalls env calls st).watchCount = st.watchCount := by
  induction calls generalizing st with
  | nil => exact ⟨h, rfl⟩
  | cons c rest ih =>
    have hstep := execCall_watch_preserved env c.1 c.2 st h
    have := ih (execCall env c.1 c.2 st) hstep.1
    exact ⟨this.1, this.2.trans hstep.2⟩

/-- C7 counterexample: in a non-development process a single
`getCachedVersions` request leaves the watch subscription uncreated
(`watch()` is called zero times, not once) — `initializeWatchers`
returns early whenever `NODE_ENV` is not `development`. -/
theorem C7_counterexample :
    ¬ ((runCalls envProdC7 [(CacheCall.versions, 0)] initialCacheState).watchCount = 1) := by
  decide

/-- C7 (amended): in a development-mode process, any nonempty sequence
of cache-layer entry-point calls creates the filesystem watch
subscription exactly once; outside development mode it is never
created. -/
theorem C7_amended_watch_init_once :
    ∀ (env : Env) (calls : List (CacheCall × Int)),
      (env.nodeEnv = "development" → calls ≠ [] →
        (runCalls env calls initialCacheState).watchCount = 1) ∧
      (env.nodeEnv ≠ "development" →
        (runCalls env calls initialCacheState).watchCount = 0) := by
  intro env calls
  constructor
  · intro hdev hne
    cases calls with
    | nil => exact absurd rfl hne
    | cons c rest =>
      have hinit : initializeWatchers env initialCacheState =
          { initialCacheState with watchersInitialized := true, watchCount := 1 } := by
        simp [initializeWatchers, hdev, initialCacheState]
      have hstep := execCall_watch_frame env c.1 c.2 initialCacheState
      rw [hinit] at hstep
      have hrest := runCalls_watch_preserved env rest (execCall env c.1 c.2 initialCacheState) hstep.1
      show (runCalls env rest (execCall env c.1 c.2 initialCacheState)).watchCount = 1
      exact hrest.2.trans hstep.2
  · intro hprod
    have hzero : ∀ (cs : List (CacheCall × Int)) (st : CacheState),
        (runCalls env cs st).watchCount = st.watchCount ∧
        (runCalls env cs st).watchersInitialized = st.watchersInitialized := by
      intro cs
      induction cs with
      | nil => intro st; exact ⟨rfl, rfl⟩
      | cons c rest ih =>
        intro st
        have hinit : initializeWatchers env st = st := by
          unfold initializeWatchers
          simp [hprod]
        have hstep := execCall_watch_frame env c.1 c.2 st
        rw [hinit] at hstep
        have := ih (execCall env c.1 c.2 st)
        exact ⟨this.1.trans hstep.2, this.2.trans hstep.1⟩
    exact (hzero calls initialCacheState).1

theorem C7_witness :
    (runCalls envDevC7 [(CacheCall.versions, 0), (CacheCall.allDocs "v1", 1)] initialCacheState).watchCount = 1 :=
  (C7_amended_watch_init_once envDevC7 [(CacheCall.versions, 0), (CacheCall.allDocs "v1", 1)]).1
    rfl (by simp)

theorem assocLookup_filter_keep {α : Type} (q : String → Bool) (m : List (String × α)) (k : String)
    (h : q k = true) :
    assocLookup (m.filter fun kv => q kv.1) k = assocLookup m k := by
  induction m with
  | nil => rfl
  | cons hd tl ih =>
    by_cases hk : hd.1 = k
    · subst hk
      simp [List.filter, h, assocLookup, ih]
    · by_cases hq : q hd.1 = true
      · simp [List.filter, hq, assocLookup, hk, ih]
      · simp only [Bool.not_eq_true] at hq
        simp [List.filter, hq, assocLookup, hk, ih]

theorem assocLookup_filter_drop {α : Type} (q : String → Bool) (m : List (String × α)) (k : String)
    (h : q k = false) :
    assocLookup (m.filter fun kv => q kv.1) k = none := by
  rw [assocLookup_none_iff]
  intro kv hkv heq
  have := (List.mem_filter.mp hkv).2
  rw [heq] at this
  exact absurd this (by simp [h])

/-- C8: a watch event on a `.mdx`/`.json` file whose first path segment
is `v` evicts the corpus entry for `v` and every document entry keyed
`v:`, leaves entries of every other version untouched, and clears the
version list exactly when the event kind is `rename`; the watch flag
and count are untouched. -/
theorem C8_watch_eviction_scope :
    ∀ (eventType f v : String) (st : CacheState),
      f ≠ "" →
      (strEndsWith f ".mdx" || strEndsWith f ".json") = true →
      (splitOnSeps f).headD "" = v →
      (assocLookup (watchCallback eventType (some f) st).allDocsCache v = none) ∧
      (∀ k, k ≠ v → assocLookup (watchCallback eventType (some f) st).allDocsCache k =
        assocLookup st.allDocsCache k) ∧
      (∀ key, strStartsWith key (v ++ ":") = true →
        assocLookup (watchCallback eventType (some f) st).docBySlugCache key = none) ∧
      (∀ key, strStartsWith key (v ++ ":") = false →
        assocLookup (watchCallback eventType (some f) st).docBySlugCache key =
          assocLookup st.docBySlugCache key) ∧
      ((watchCallback eventType (some f) st).versionsData =
        if eventType = "rename" then none else st.versionsData) ∧
      (watchCallback eventType (some f) st).versionsTimestamp = st.versionsTimestamp ∧
      (watchCallback eventType (some f) st).watchersInitialized = st.watchersInitialized ∧
      (watchCallback eventType (some f) st).watchCount = st.watchCount := by
  intro eventType f v st hne hsuffix hv
  have hcb : watchCallback eventType (some f) st =
      (let st' :=
        { st with
          allDocsCache := st.allDocsCache.filter fun kv => !(kv.1 == v)
          docBySlugCache := st.docBySlugCache.filter fun kv => !(strStartsWith kv.1 (v ++ ":")) }
       if eventType = "rename" then { st' with versionsData := none } else st') := by
    unfold watchCallback
    dsimp only
    rw [if_neg hne, if_pos hsuffix, hv]
  rw [hcb]
  dsimp only
  by_cases hr : eventType = "rename"
  · rw [if_pos hr]
    refine ⟨?_, ?_, ?_, ?_, ?_, rfl, rfl, rfl⟩
    · exact assocLookup_filter_drop (fun key => !(key == v)) st.allDocsCache v (by simp)
    · intro k hk
      exact assocLookup_filter_keep (fun key => !(key == v)) st.allDocsCache k (by simp [hk])
    · intro key hkey
      exact assocLookup_filter_drop (fun key => !(strStartsWith key (v ++ ":"))) st.docBySlugCache key (by simp [hkey])
    · intro key hkey
      exact assocLookup_filter_keep (fun key => !(strStartsWith key (v ++ ":"))) st.docBySlugCache key (by simp [hkey])
    · simp [hr]
  · rw [if_neg hr]
    refine ⟨?_, ?_, ?_, ?_, ?_, rfl, rfl, rfl⟩
    · exact assocLookup_filter_drop (fun key => !(key == v)) st.allDocsCache v (by simp)
    · intro k hk
      exact assocLookup_filter_keep (fun key => !(key == v)) st.allDocsCache k (by simp [hk])
    · intro key hkey
      exact assocLookup_filter_drop (fun key => !(strStartsWith key (v ++ ":"))) st.docBySlugCache key (by simp [hkey])
    · intro key hkey
      exact assocLookup_filter_keep (fun key => !(strStartsWith key (v ++ ":"))) st.docBySlugCache key (by simp [hkey])
    · simp [hr]

theorem C8_witness :
    assocLookup (watchCallback "change" (some "v1/intro.mdx") stC8).allDocsCache "v1" = none ∧
    assocLookup (watchCallback "change" (some "v1/intro.mdx") stC8).allDocsCache "v2" =
      assocLookup stC8.allDocsCache "v2" ∧
    assocLookup (watchCallback "change" (some "v1/intro.mdx") stC8).docBySlugCache "v1:intro" = none ∧
    (watchCallback "change" (some "v1/intro.mdx") stC8).versionsData = some ["v1", "v2"] := by
  have h := C8_watch_eviction_scope "change" "v1/intro.mdx" "v1" stC8 (by decide) (by decide) (by decide)
  refine ⟨h.1, h.2.1 "v2" (by decide), h.2.2.1 "v1:intro" (by decide), ?_⟩
  have hv := h.2.2.2.2.1
  simpa using hv

/-- C10: `getCachedDocBySlug` stores a `NotFound` (`none`) resolution
with a timestamp under `version:slug` exactly like a success, and any
later call for the same key inside the TTL is a hit that returns the
stored `none` without re-running the resolver — the second call may see
a completely different filesystem (the file created meanwhile) and
still answers from the cache. -/
theorem C10_notfound_cached_like_success :
    (∀ (env : Env) (slug version : String) (T : Int) (st : CacheState),
      assocLookup st.docBySlugCache (version ++ ":" ++ slug) = none →
      (getCachedDocBySlug env slug version T st).2.1 = .miss ∧
      (getCachedDocBySlug env slug version T st).1 = getDocBySlug env slug version none ∧
      assocLookup (getCachedDocBySlug env slug version T st).2.2.docBySlugCache
        (version ++ ":" ++ slug) = some ⟨getDocBySlug env slug version none, T⟩) ∧
    (∀ (env : Env) (slug version : String) (T t : Int) (st : CacheState),
      assocLookup st.docBySlugCache (version ++ ":" ++ slug) = some ⟨none, T⟩ →
      t - T < CACHE_TTL env →
      (getCachedDocBySlug env slug version t st).1 = none ∧
      (getCachedDocBySlug env slug version t st).2.1 = .hit ∧
      (getCachedDocBySlug env slug version t st).2.2.docBySlugCache = st.docBySlugCache) := by
  constructor
  · intro env slug version T st hlook
    have hlook' : assocLookup (initializeWatchers env st).docBySlugCache (version ++ ":" ++ slug) = none := by
      rw [initializeWatchers_docBySlugCache]; exact hlook
    refine ⟨?_, ?_, ?_⟩
    · simp [getCachedDocBySlug, hlook']
    · simp [getCachedDocBySlug, hlook']
    · simp only [getCachedDocBySlug, hlook']
      simp [assocLookup_insertOrReplace_self]
  · intro env slug version T t st hlook hvalid
    have hlook' : assocLookup (initializeWatchers env st).docBySlugCache (version ++ ":" ++ slug) =
        some ⟨none, T⟩ := by
      rw [initializeWatchers_docBySlugCache]; exact hlook
    have hb : isCacheValid env t T = true := by simp [isCacheValid, hvalid]
    refine ⟨?_, ?_, ?_⟩
    · simp [getCachedDocBySlug, hlook', hb]
    · simp [getCachedDocBySlug, hlook', hb]
    · simp only [getCachedDocBySlug, hlook', hb]
      simp [initializeWatchers_docBySlugCache]

theorem C10_witness :
    (getCachedDocBySlug envC10a "intro" "v1" 0 initialCacheState).2.1 = .miss ∧
    assocLookup stC10.docBySlugCache "v1:intro" = some ⟨none, 0⟩ ∧
    (getCachedDocBySlug envC10b "intro" "v1" 1 stC10).1 = none ∧
    (getCachedDocBySlug envC10b "intro" "v1" 1 stC10).2.1 = .hit := by
  have h1 := C10_notfound_cached_like_success.1 envC10a "intro" "v1" 0 initialCacheState (by decide)
  have h2 := C10_notfound_cached_like_success.2 envC10b "intro" "v1" 0 1 stC10 (by decide) (by decide)
  exact ⟨h1.1, by decide, h2.1, h2.2.1⟩

/-- The tab-group membership class of a document: its named tab group
(own metadata falling back to inherited category) or the no-tab-group
class (`none`, covering absent and empty values). -/
theorem tabClass_of_filter_pred (cur p : Doc)
    (hp : (if truthyS (docTabGroup cur) then docTabGroup p == docTabGroup cur
           else !truthyS (docTabGroup p)) = true) :
    tabClass p = tabClass cur := by
  by_cases h : truthyS (docTabGroup cur) = true
  · rw [if_pos h] at hp
    have heq : docTabGroup p = docTabGroup cur := by simpa using hp
    simp [tabClass, heq]
  · have h' : truthyS (docTabGroup cur) = false := by
      cases hc : truthyS (docTabGroup cur)
      · rfl
      · exact absurd hc h
    rw [if_neg (by simp [h'])] at hp
    have hpf : truthyS (docTabGroup p) = false := by simpa using hp
    simp [tabClass, hpf, h']

/-- C6: the previous/next documents returned by `getAdjacentDocs` always
lie in the same tab-group membership class as the current document
(same named tab group, or both without one); documents of other classes
sitting between them in the flattened order are skipped. -/
theorem C6_adjacent_docs_tab_scope :
    ∀ (allDocs : List Doc) (slug : String) (i : Nat) (cur : Doc),
      (sidebarOrderedDocs allDocs).findIdx? (fun d => d.slug == slug) = some i →
      (sidebarOrderedDocs allDocs).get? i = some cur →
      (∀ p, (getAdjacentDocs slug allDocs).1 = some p → tabClass p = tabClass cur) ∧
      (∀ n, (getAdjacentDocs slug allDocs).2 = some n → tabClass n = tabClass cur) := by
  intro allDocs slug i cur hfind hget
  unfold getAdjacentDocs
  dsimp only
  rw [hfind]
  dsimp only
  rw [hget]
  dsimp only
  set filteredDocs := (sidebarOrderedDocs allDocs).filter fun d =>
    if truthyS (docTabGroup cur) then docTabGroup d == docTabGroup cur
    else !truthyS (docTabGroup d) with hfd
  cases hfi : filteredDocs.findIdx? (fun d => d.slug == slug) with
  | none => exact ⟨fun p hp => by simp at hp, fun n hn => by simp at hn⟩
  | some fi =>
    constructor
    · intro p hp
      dsimp only at hp
      have hmem : p ∈ filteredDocs := by
        by_cases hgt : fi > 0
        · rw [if_pos hgt] at hp
          exact List.get?_mem hp
        · rw [if_neg hgt] at hp
          cases hp
      have hpred := (List.mem_filter.mp (hfd ▸ hmem)).2
      exact tabClass_of_filter_pred cur p hpred
    · intro n hn
      dsimp only at hn
      have hmem : n ∈ filteredDocs := List.get?_mem hn
      have hpred := (List.mem_filter.mp (hfd ▸ hmem)).2
      exact tabClass_of_filter_pred cur n hpred

theorem C6_witness :
    sidebarOrderedDocs [docTabA, docTabB, docTabC] = [docTabA, docTabB, docTabC] ∧
    getAdjacentDocs "a" [docTabA, docTabB, docTabC] = (none, some docTabC) ∧
    (∀ n, (getAdjacentDocs "a" [docTabA, docTabB, docTabC]).2 = some n →
      tabClass n = tabClass docTabA) :=
  ⟨by decide, by decide,
    (C6_adjacent_docs_tab_scope [docTabA, docTabB, docTabC] "a" 0 docTabA
      (by decide) (by decide)).2⟩

theorem assocLookup_insertOrReplace_other {α : Type} (m : List (String × α)) (k k' : String)
    (v : α) (h : k' ≠ k) :
    assocLookup (insertOrReplace m k v) k' = assocLookup m k' := by
  induction m with
  | nil => simp [insertOrReplace, assocLookup, Ne.symm h]
  | cons hd tl ih =>
    by_cases hk : hd.1 = k
    · simp [insertOrReplace, hk, assocLookup, Ne.symm h]
    · simp only [insertOrReplace, if_neg hk, assocLookup, ih]

/-- The standing invariant of the `uniqueDocs` map: keys are unique,
each key is its value's logical slug, and every stored document has the
target or the default locale. -/
theorem dedupInsert_inv (i18n : Option I18nConfig) (target : String) (m : List (String × Doc))
    (doc : Doc) (h : DedupInv i18n target m) :
    DedupInv i18n target (dedupInsert i18n target m doc) := by
  obtain ⟨hnd, hmem⟩ := h
  unfold dedupInsert
  dsimp only
  cases hlook : assocLookup m (logicalSlugOf i18n doc.slug) with
  | none =>
    have happend : ∀ (hloc : doc.meta.locale = some target ∨
        doc.meta.locale = i18n.map (·.defaultLocale)),
        DedupInv i18n target (insertOrReplace m (logicalSlugOf i18n doc.slug) doc) := by
      intro hloc
      rw [insertOrReplace_of_lookup_none doc hlook]
      constructor
      · rw [List.map_append]
        rw [List.nodup_append]
        refine ⟨hnd, by simp, ?_⟩
        intro a ha hb
        simp only [List.map_cons, List.map_nil, List.mem_singleton] at hb
        rcases List.mem_map.mp ha with ⟨kv, hkv, hk⟩
        have := (assocLookup_none_iff m (logicalSlugOf i18n doc.slug)).mp hlook kv hkv
        rw [hk, hb] at this
        exact this rfl
      · intro kv hkv
        rcases List.mem_append.mp hkv with hin | hin
        · exact hmem kv hin
        · simp only [List.mem_singleton] at hin
          subst hin
          exact ⟨rfl, hloc⟩
    by_cases h1 : doc.meta.locale = some target
    · simp only [if_pos h1]
      exact happend (Or.inl h1)
    · simp only [if_neg h1]
      by_cases h2 : doc.meta.locale = i18n.map (·.defaultLocale)
      · simp only [if_pos h2]
        exact happend (Or.inr h2)
      · simp only [if_neg h2]
        exact ⟨hnd, hmem⟩
  | some existing =>
    by_cases hcond : doc.meta.locale = some target ∧ existing.meta.locale ≠ some target
    · simp only [if_pos hcond]
      constructor
      · rw [keys_insertOrReplace_of_lookup_some doc hlook]
        exact hnd
      · intro kv hkv
        rcases mem_insertOrReplace hkv with hin | hin
        · exact hmem kv hin
        · subst hin
          exact ⟨rfl, Or.inl hcond.1⟩
    · simp only [if_neg hcond]
      exact ⟨hnd, hmem⟩

theorem foldl_dedup_inv (i18n : Option I18nConfig) (target : String) :
    ∀ (ds : List Doc) (m : List (String × Doc)), DedupInv i18n target m →
      DedupInv i18n target (ds.foldl (dedupInsert i18n target) m) := by
  intro ds
  induction ds with
  | nil => intro m h; exact h
  | cons d rest ih =>
    intro m h
    exact ih (dedupInsert i18n target m d) (dedupInsert_inv i18n target m d h)

theorem dedupInsert_preserves_target_stored (i18n : Option I18nConfig) (target : String)
    (m : List (String × Doc)) (doc : Doc) (s : String)
    (h : ∃ e, assocLookup m s = some e ∧ e.meta.locale = some target) :
    ∃ e, assocLookup (dedupInsert i18n target m doc) s = some e ∧ e.meta.locale = some target := by
  obtain ⟨e, he, hloc⟩ := h
  unfold dedupInsert
  dsimp only
  by_cases hls : logicalSlugOf i18n doc.slug = s
  · rw [hls, he]
    have : ¬ (doc.meta.locale = some target ∧ e.meta.locale ≠ some target) := by
      rintro ⟨_, hne⟩; exact hne hloc
    simp only [if_neg this]
    exact ⟨e, he, hloc⟩
  · have hne : s ≠ logicalSlugOf i18n doc.slug := fun hh => hls hh.symm
    cases hlook : assocLookup m (logicalSlugOf i18n doc.slug) with
    | none =>
      by_cases h1 : doc.meta.locale = some target
      · simp only [if_pos h1]
        exact ⟨e, (assocLookup_insertOrReplace_other m _ s doc hne).trans he, hloc⟩
      · simp only [if_neg h1]
        by_cases h2 : doc.meta.locale = i18n.map (·.defaultLocale)
        · simp only [if_pos h2]
          exact ⟨e, (assocLookup_insertOrReplace_other m _ s doc hne).trans he, hloc⟩
        · simp only [if_neg h2]
          exact ⟨e, he, hloc⟩
    | some existing =>
      by_cases hcond : doc.meta.locale = some target ∧ existing.meta.locale ≠ some target
      · simp only [if_pos hcond]
        exact ⟨e, (assocLookup_insertOrReplace_other m _ s doc hne).trans he, hloc⟩
      · simp only [if_neg hcond]
        exact ⟨e, he, hloc⟩

theorem dedupInsert_establishes_target (i18n : Option I18nConfig) (target : String)
    (m : List (String × Doc)) (doc : Doc) (s : String)
    (hls : logicalSlugOf i18n doc.slug = s) (hloc : doc.meta.locale = some target) :
    ∃ e, assocLookup (dedupInsert i18n target m doc) s = some e ∧ e.meta.locale = some target := by
  unfold dedupInsert
  dsimp only
  rw [hls]
  cases hlook : assocLookup m s with
  | none =>
    simp only [if_pos hloc]
    exact ⟨doc, hls ▸ assocLookup_insertOrReplace_self m s doc, hloc⟩
  | some existing =>
    by_cases hex : existing.meta.locale = some target
    · have : ¬ (doc.meta.locale = some target ∧ existing.meta.locale ≠ some target) := by
        rintro ⟨_, hne⟩; exact hne hex
      simp only [if_neg this]
      exact ⟨existing, hlook, hex⟩
    · simp only [if_pos (And.intro hloc hex)]
      exact ⟨doc, hls ▸ assocLookup_insertOrReplace_self m s doc, hloc⟩

theorem foldl_dedup_target_wins (i18n : Option I18nConfig) (target : String) :
    ∀ (ds : List Doc) (m : List (String × Doc)) (s : String),
      ((∃ e, assocLookup m s = some e ∧ e.meta.locale = some target) ∨
       (∃ d ∈ ds, logicalSlugOf i18n d.slug = s ∧ d.meta.locale = some target)) →
      ∃ e, assocLookup (ds.foldl (dedupInsert i18n target) m) s = some e ∧
        e.meta.locale = some target := by
  intro ds
  induction ds with
  | nil =>
    intro m s h
    rcases h with h | ⟨d, hd, _⟩
    · exact h
    · simp at hd
  | cons d0 rest ih =>
    intro m s h
    apply ih
    rcases h with hP | ⟨d, hd, hls, hloc⟩
    · exact Or.inl (dedupInsert_preserves_target_stored i18n target m d0 s hP)
    · rcases List.mem_cons.mp hd with heq | hin
      · subst heq
        exact Or.inl (dedupInsert_establishes_target i18n target m d s hls hloc)
      · exact Or.inr ⟨d, hin, hls, hloc⟩

theorem assocLookup_mem {α : Type} {m : List (String × α)} {k : String} {v : α}
    (h : assocLookup m k = some v) : (k, v) ∈ m := by
  induction m with
  | nil => simp [assocLookup] at h
  | cons hd tl ih =>
    by_cases hk : hd.1 = k
    · simp only [assocLookup, if_pos hk, Option.some.injEq] at h
      have heq : hd = (k, v) := by
        calc hd = (hd.1, hd.2) := rfl
          _ = (k, v) := by rw [hk, h]
      exact List.mem_cons.mpr (Or.inl heq.symm)
    · simp only [assocLookup, if_neg hk] at h
      exact List.mem_cons_of_mem _ (ih h)

/-- C2: one corpus scan keeps exactly one document per logical slug; a
document is kept only if its locale is the target or the default
locale; a target-locale document always replaces an already-stored
non-target document for the same logical slug, so whenever a valid
target-locale document exists for a logical slug, the surviving
document for that slug carries the target locale. -/
theorem C2_dedup_unique_per_logical_slug :
    ∀ (env : Env) (version : String) (locale : Option String),
      ((getAllDocs env version locale).Pairwise fun a b =>
          logicalSlugOf env.i18n a.slug ≠ logicalSlugOf env.i18n b.slug) ∧
      (∀ d ∈ getAllDocs env version locale,
        d.meta.locale = some (targetLocaleOf env.i18n locale) ∨
        d.meta.locale = env.i18n.map (·.defaultLocale)) ∧
      (∀ (m : List (String × Doc)) (doc existing : Doc),
        assocLookup m (logicalSlugOf env.i18n doc.slug) = some existing →
        doc.meta.locale = some (targetLocaleOf env.i18n locale) →
        existing.meta.locale ≠ some (targetLocaleOf env.i18n locale) →
        dedupInsert env.i18n (targetLocaleOf env.i18n locale) m doc =
          insertOrReplace m (logicalSlugOf env.i18n doc.slug) doc) ∧
      (∀ s : String,
        (∃ d ∈ validDocs env version, logicalSlugOf env.i18n d.slug = s ∧
          d.meta.locale = some (targetLocaleOf env.i18n locale)) →
        env.fs.dirs.contains version = true →
        ∃ e ∈ getAllDocs env version locale, logicalSlugOf env.i18n e.slug = s ∧
          e.meta.locale = some (targetLocaleOf env.i18n locale)) := by
  intro env version locale
  have hstep : ∀ (m : List (String × Doc)) (doc existing : Doc),
      assocLookup m (logicalSlugOf env.i18n doc.slug) = some existing →
      doc.meta.locale = some (targetLocaleOf env.i18n locale) →
      existing.meta.locale ≠ some (targetLocaleOf env.i18n locale) →
      dedupInsert env.i18n (targetLocaleOf env.i18n locale) m doc =
        insertOrReplace m (logicalSlugOf env.i18n doc.slug) doc := by
    intro m doc existing hlook hdoc hex
    unfold dedupInsert
    dsimp only
    rw [hlook]
    dsimp only
    rw [if_pos (And.intro hdoc hex)]
  have hinv : DedupInv env.i18n (targetLocaleOf env.i18n locale)
      (dedupDocs env.i18n (targetLocaleOf env.i18n locale) (validDocs env version)) :=
    foldl_dedup_inv env.i18n (targetLocaleOf env.i18n locale) (validDocs env version) []
      ⟨by simp, by simp⟩
  by_cases hdir : env.fs.dirs.contains version = true
  · have hgad : getAllDocs env version locale =
        stableSortBy docOrderKey
          (assocValues (dedupDocs env.i18n (targetLocaleOf env.i18n locale) (validDocs env version))) := by
      simp only [getAllDocs, if_pos hdir]
    have hperm := stableSortBy_perm docOrderKey
      (assocValues (dedupDocs env.i18n (targetLocaleOf env.i18n locale) (validDocs env version)))
    have hpw : (dedupDocs env.i18n (targetLocaleOf env.i18n locale) (validDocs env version)).Pairwise
        (fun a b => logicalSlugOf env.i18n a.2.slug ≠ logicalSlugOf env.i18n b.2.slug) := by
      have h1 : (dedupDocs env.i18n (targetLocaleOf env.i18n locale) (validDocs env version)).Pairwise
          (fun a b => a.1 ≠ b.1) := List.pairwise_map.mp hinv.1
      refine List.Pairwise.imp_of_mem ?_ h1
      intro a b ha hb hne
      rw [(hinv.2 a ha).1, (hinv.2 b hb).1]
      exact hne
    refine ⟨?_, ?_, hstep, ?_⟩
    · rw [hgad]
      exact (hperm.pairwise_iff (fun hxy e => hxy e.symm)).mpr (List.pairwise_map.mpr hpw)
    · intro d hd
      rw [hgad] at hd
      have hmem : d ∈ assocValues (dedupDocs env.i18n (targetLocaleOf env.i18n locale) (validDocs env version)) :=
        hperm.mem_iff.mp hd
      rcases List.mem_map.mp hmem with ⟨kv, hkv, hkv2⟩
      rw [← hkv2]
      exact (hinv.2 kv hkv).2
    · rintro s ⟨d, hd, hls, hloc⟩ _
      obtain ⟨e, he, heloc⟩ := foldl_dedup_target_wins env.i18n (targetLocaleOf env.i18n locale)
        (validDocs env version) [] s (Or.inr ⟨d, hd, hls, hloc⟩)
      have hkvmem : (s, e) ∈ dedupDocs env.i18n (targetLocaleOf env.i18n locale) (validDocs env version) :=
        assocLookup_mem he
      have hchar := (hinv.2 (s, e) hkvmem).1
      refine ⟨e, ?_, hchar, heloc⟩
      rw [hgad]
      exact hperm.mem_iff.mpr (List.mem_map.mpr ⟨(s, e), hkvmem, rfl⟩)
  · have hgad : getAllDocs env version locale = [] := by
      unfold getAllDocs
      rw [if_neg hdir]
    refine ⟨by rw [hgad]; exact List.Pairwise.nil, by rw [hgad]; simp, hstep, ?_⟩
    intro s _ hdir'
    exact absurd hdir' hdir

theorem C2_witness :
    ((getAllDocs envEx1 "v1" (some "fr")).map fun d =>
      (logicalSlugOf envEx1.i18n d.slug, d.meta.locale)) = [("intro", some "fr")] ∧
    ((getAllDocs envEx1 "v1" (some "fr")).Pairwise fun a b =>
      logicalSlugOf envEx1.i18n a.slug ≠ logicalSlugOf envEx1.i18n b.slug) ∧
    (∀ d ∈ getAllDocs envEx1 "v1" (some "fr"),
      d.meta.locale = some (targetLocaleOf envEx1.i18n (some "fr")) ∨
      d.meta.locale = envEx1.i18n.map (·.defaultLocale)) :=
  ⟨by decide, (C2_dedup_unique_per_logical_slug envEx1 "v1" (some "fr")).1,
    (C2_dedup_unique_per_logical_slug envEx1 "v1" (some "fr")).2.1⟩
